import Mathlib

/-
Verification of the core algorithms of the jsonpaths repository: the
structural JSON diff engine (compareObjects in the diff-checker component)
and the search visibility indexer (buildVisibilityIndex in the JSON tree
view component), together with the path addressing they share.

Modelling choices, stated once:
- JSON values are a tagged union.  The source manipulates parsed JSON with
  runtime typeof / Array.isArray checks; objects preserve insertion order,
  so an object is an ordered association list.  JSON numbers are IEEE
  doubles in the source, but the differ only ever tests them for strict
  equality, so they are modelled as integers (every claim under study uses
  integer numbers only).
- A value absent on one side (missing object key, index past the end of an
  array) appears in the source as JS undefined; an Option is none exactly
  in those places.  A JSON null is a value, Json.null.
- Paths: the tree view stores a path as an array of strings, array indices
  being pushed as String(index); identity is the JSON.stringify rendering
  of that array.  JSON.stringify is injective on arrays of strings, so the
  visibility set of serialized paths is modelled as a list of the segment
  lists themselves; serializePath below models the rendering itself.
- String lowercasing in the source is toLowerCase; it is modelled on the
  ASCII range, which is the only range the lowercasing is applied to in
  the properties checked here (both sides of every statement lower with
  the same function, so no statement depends on the non-ASCII cases).
- Key presence in the differ's object loop: the source tests key absence
  with the JS in operator, which also reports members inherited from
  Object.prototype (toString, hasOwnProperty, valueOf, ...): for such a
  key the source recurses into the inherited function value instead of
  reporting absence.  The model tests own keys only (lookupField); the
  divergence is confined to keys that spell an Object.prototype member
  name and are not own keys of both sides, so no general statement below
  asserts the per-key added/removed classification.
-/

inductive Json where
  | null
  | bool (b : Bool)
  | num (n : Int)
  | str (s : String)
  | arr (xs : List Json)
  | obj (fs : List (String × Json))

mutual

def jbeq : Json → Json → Bool
  | .null, .null => true
  | .bool a, .bool b => a == b
  | .num a, .num b => a == b
  | .str a, .str b => a == b
  | .arr xs, .arr ys => lbeq xs ys
  | .obj fs, .obj gs => fbeq fs gs
  | _, _ => false

def lbeq : List Json → List Json → Bool
  | [], [] => true
  | x :: xs, y :: ys => jbeq x y && lbeq xs ys
  | _, _ => false

def fbeq : List (String × Json) → List (String × Json) → Bool
  | [], [] => true
  | (k1, v1) :: fs, (k2, v2) :: gs => k1 == k2 && jbeq v1 v2 && fbeq fs gs
  | _, _ => false

end

theorem lbeq_iff_of (xs : List Json)
    (H : ∀ x ∈ xs, ∀ b, jbeq x b = true ↔ x = b) :
    ∀ ys, lbeq xs ys = true ↔ xs = ys := by
  induction xs with
  | nil => intro ys; cases ys <;> simp [lbeq]
  | cons x xs ih =>
    intro ys
    cases ys with
    | nil => simp [lbeq]
    | cons y ys =>
      have hx := H x (by simp)
      have hrest := ih (fun z hz => H z (by simp [hz]))
      simp [lbeq, hx, hrest]

theorem fbeq_iff_of (fs : List (String × Json))
    (H : ∀ kv ∈ fs, ∀ b, jbeq kv.2 b = true ↔ kv.2 = b) :
    ∀ gs, fbeq fs gs = true ↔ fs = gs := by
  induction fs with
  | nil => intro gs; cases gs <;> simp [fbeq]
  | cons kv fs ih =>
    intro gs
    obtain ⟨k1, v1⟩ := kv
    cases gs with
    | nil => simp [fbeq]
    | cons kw gs =>
      obtain ⟨k2, v2⟩ := kw
      have hv := H (k1, v1) (by simp)
      have hrest := ih (fun z hz => H z (by simp [hz]))
      simp [fbeq, hv, hrest, and_assoc]

theorem jbeq_iff : ∀ a b, jbeq a b = true ↔ a = b
  | .null, b => by cases b <;> simp [jbeq]
  | .bool x, b => by cases b <;> simp [jbeq]
  | .num x, b => by cases b <;> simp [jbeq]
  | .str x, b => by cases b <;> simp [jbeq]
  | .arr xs, b => by
    cases b <;> simp [jbeq]
    exact lbeq_iff_of xs (fun x hx => jbeq_iff x) _
  | .obj fs, b => by
    cases b <;> simp [jbeq]
    exact fbeq_iff_of fs (fun kv hkv => jbeq_iff kv.2) _
termination_by a _ => sizeOf a
decreasing_by
  · have := List.sizeOf_lt_of_mem hx
    simp [Json.arr.sizeOf_spec]
    omega
  · have h1 := List.sizeOf_lt_of_mem hkv
    obtain ⟨k, v⟩ := kv
    simp at h1 ⊢
    omega

instance : DecidableEq Json := fun a b => decidable_of_iff (jbeq a b = true) (jbeq_iff a b)

/-- The runtime kind tags the differ branches on: JS typeof (where typeof
null is the string object) together with Array.isArray. -/
def jsTypeof : Json → String
  | .null => "object"
  | .bool _ => "boolean"
  | .num _ => "number"
  | .str _ => "string"
  | .arr _ => "object"
  | .obj _ => "object"

def Json.isArr : Json → Bool
  | .arr _ => true
  | _ => false

/-- Kinds of diff entries, from the DiffResult interface of the source. -/
inductive DiffType where
  | added
  | removed
  | modified
  | unchanged
deriving DecidableEq

/-- One entry of the diff output; oldValue and newValue are none where the
source stores undefined. -/
structure DiffResult where
  path : String
  type : DiffType
  oldValue : Option Json
  newValue : Option Json
deriving DecidableEq

/-- JS path || root fallback used at every push in compareObjects. -/
def rootify (path : String) : String := if path = "" then "root" else path

/-- Array item path: template path[i] (the JS ternary collapses, since an
empty prefix concatenates to the same string). -/
def idxPath (path : String) (i : Nat) : String :=
  path ++ "[" ++ Nat.repr i ++ "]"

/-- Object member path: key at the root, path.key below it. -/
def keyPath (path : String) (k : String) : String :=
  if path = "" then k else path ++ "." ++ k

/-- Property read obj[key] on an insertion-ordered object. -/
def lookupField : List (String × Json) → String → Option Json
  | [], _ => none
  | (k1, v) :: rest, k => if k1 = k then some v else lookupField rest k

theorem lookupField_size (fs : List (String × Json)) (k : String) (v : Json)
    (h : lookupField fs k = some v) : sizeOf v < sizeOf fs := by
  induction fs with
  | nil => simp [lookupField] at h
  | cons hd tl ih =>
    obtain ⟨k1, v1⟩ := hd
    simp only [lookupField] at h
    split at h
    · cases h; simp; omega
    · have := ih h; simp; omega

/-- First-occurrence deduplication; new Set([..]) iterates insertion
order, keeping the first occurrence of each element. -/
def dedupFirst : List String → List String
  | [] => []
  | k :: ks => k :: dedupFirst (ks.filter (fun k2 => k2 ≠ k))
termination_by ks => ks.length
decreasing_by
  have := List.length_filter_le (fun k2 => !decide (k2 = k)) ks
  simp only [ne_eq, decide_not, List.length_cons] at this ⊢
  omega

/-- Iteration order of new Set([...Object.keys(obj1), ...Object.keys(obj2)]). -/
def unionKeys (fs gs : List (String × Json)) : List String :=
  dedupFirst (fs.map Prod.fst ++ gs.map Prod.fst)

mutual

/-- Shallow embedding of compareObjects from the diff checker component.
The component state showOnlyDifferences is the first parameter; the
branches follow the source in order: the null/undefined screen (a JSON
null on either side is caught here and reported as added/removed with
both values attached), the runtime-kind mismatch, primitive comparison,
arrays by index up to the longer length, and objects over the set union
of keys. -/
def compareObjects (show0 : Bool) (obj1 obj2 : Json) (path : String) : List DiffResult :=
  if obj1 = Json.null ∨ obj2 = Json.null then
    if obj1 = obj2 then []
    else [⟨rootify path, if obj1 = Json.null then .added else .removed, some obj1, some obj2⟩]
  else if jsTypeof obj1 ≠ jsTypeof obj2 ∨ obj1.isArr ≠ obj2.isArr then
    [⟨rootify path, .modified, some obj1, some obj2⟩]
  else
    match obj1, obj2 with
    | .arr xs, .arr ys => compareArrayItems show0 path 0 xs ys
    | .obj fs, .obj gs => compareUnionKeys show0 path fs gs (unionKeys fs gs)
    | v1, v2 =>
      if v1 ≠ v2 then [⟨rootify path, .modified, some v1, some v2⟩]
      else if !show0 then [⟨rootify path, .unchanged, some v1, some v2⟩]
      else []
termination_by (sizeOf obj1 + sizeOf obj2, 0)

/-- The array loop of compareObjects: index i runs to the longer length;
an index past the old array is added, past the new array removed,
otherwise the items are compared recursively. -/
def compareArrayItems (show0 : Bool) (path : String) (i : Nat) :
    List Json → List Json → List DiffResult
  | [], [] => []
  | [], y :: ys =>
    ⟨idxPath path i, .added, none, some y⟩ :: compareArrayItems show0 path (i + 1) [] ys
  | x :: xs, [] =>
    ⟨idxPath path i, .removed, some x, none⟩ :: compareArrayItems show0 path (i + 1) xs []
  | x :: xs, y :: ys =>
    compareObjects show0 x y (idxPath path i) ++ compareArrayItems show0 path (i + 1) xs ys
termination_by xs ys => (sizeOf xs + sizeOf ys, 0)

/-- The object loop of compareObjects over the ordered union of keys: a
key absent in the old object is added, absent in the new object removed,
present in both compared recursively.  Absence models the source's
!(key in obj) as own-key absence (lookupField = none); the JS in
operator additionally reports members inherited from Object.prototype
(toString, hasOwnProperty, valueOf, ...), for which the source recurses
into the inherited function value instead.  The two readings agree on
every key that does not spell an Object.prototype member name, and on
every key that is an own key of both objects. -/
def compareUnionKeys (show0 : Bool) (path : String) (fs gs : List (String × Json)) :
    List String → List DiffResult
  | [] => []
  | k :: ks =>
    (match h1 : lookupField fs k, h2 : lookupField gs k with
     | none, g => [⟨keyPath path k, .added, none, g⟩]
     | some v1, none => [⟨keyPath path k, .removed, some v1, none⟩]
     | some v1, some v2 => compareObjects show0 v1 v2 (keyPath path k))
    ++ compareUnionKeys show0 path fs gs ks
termination_by ks => (sizeOf fs + sizeOf gs, ks.length + 1)
decreasing_by
  · have a1 := lookupField_size fs k v1 h1
    have a2 := lookupField_size gs k v2 h2
    exact Prod.Lex.left _ _ (by omega)
  · exact Prod.Lex.right _ (by simp [List.length_cons])

end

/-- The external diff entry point: the UI exposes includeUnchanged, the
negation of the showOnlyDifferences state read by compareObjects. -/
def diff (oldValue newValue : Json) (includeUnchanged : Bool) : List DiffResult :=
  compareObjects (!includeUnchanged) oldValue newValue ""

/-- ASCII case folding of one character, the range toLowerCase affects in
the statements below. -/
def lowerChar (c : Char) : Char :=
  if 65 ≤ c.toNat ∧ c.toNat ≤ 90 then Char.ofNat (c.toNat + 32) else c

/-- Model of String.prototype.toLowerCase on the ASCII range. -/
def lowerStr (s : String) : String := ⟨s.data.map lowerChar⟩

def isPre : List Char → List Char → Bool
  | [], _ => true
  | _ :: _, [] => false
  | a :: as, b :: bs => a == b && isPre as bs

def subListAt : List Char → List Char → Bool
  | pat, [] => pat.isEmpty
  | pat, s :: rest => isPre pat (s :: rest) || subListAt pat rest

/-- Model of String.prototype.includes: pat occurs contiguously in s. -/
def strIncludes (s pat : String) : Bool := subListAt pat.data s.data

/-- The accumulated lowercased dotted path: the JS ternary
previousLowerPath ? prev + dot + seg : seg. -/
def joinLower (lp seg : String) : String :=
  if lp = "" then seg else lp ++ "." ++ seg

/-- JSON.stringify of one string: quote, escaping backslash, quote and the
common control characters (other control characters, which are u-escaped
by the source, do not occur in any statement below). -/
def quoteSeg (s : String) : String :=
  ⟨('"' :: s.data.flatMap (fun c =>
      if c = '"' then ['\\', '"']
      else if c = '\\' then ['\\', '\\']
      else if c = '\n' then ['\\', 'n']
      else if c = '\t' then ['\\', 't']
      else if c = '\r' then ['\\', 'r']
      else [c])) ++ ['"']⟩

/-- Model of serializePath = JSON.stringify(segments): the rendered string
under which a path is stored in the visibility set. -/
def serializePath (segments : List String) : String :=
  "[" ++ String.intercalate "," (segments.map quoteSeg) ++ "]"

/-- Path extension in the tree renderer for an object member:
[...path, key]. -/
def extendPath (path : List String) (key : String) : List String := path ++ [key]

/-- Path extension in the tree renderer for an array item:
[...path, String(index)]. -/
def extendIndex (path : List String) (index : Nat) : List String :=
  path ++ [Nat.repr index]

mutual

/-- Shallow embedding of the visitNode closure of buildVisibilityIndex.
Arguments mirror the mutable state of the source: the lowercased dotted
path so far and the structured segment list so far.  The result is the
list of visible paths contributed by this subtree, in insertion order
(children first, then the node itself), paired with the boolean the
closure returns.  The source inserts serializePath of each segment list
into a Set of strings; as JSON.stringify is injective on string arrays the
set is modelled by the segment lists themselves. -/
def visitNode (term : String) (node : Json) (lowerPath : String)
    (segs : List String) : List (List String) × Bool :=
  let currentPathMatches := decide (0 < lowerPath.length) && strIncludes lowerPath term
  let valueMatches :=
    match node with
    | .str s => strIncludes (lowerStr s) term
    | _ => false
  let child :=
    match node with
    | .arr xs => visitArr term xs lowerPath segs 0
    | .obj fs => visitObj term fs lowerPath segs
    | _ => ([], false)
  let isMatch := currentPathMatches || valueMatches || child.2
  (child.1 ++ (if isMatch then [segs] else []), isMatch)

/-- The array loop of visitNode: the segment for index i is String(i). -/
def visitArr (term : String) (xs : List Json) (lowerPath : String)
    (segs : List String) (i : Nat) : List (List String) × Bool :=
  match xs with
  | [] => ([], false)
  | x :: rest =>
    let r := visitNode term x (joinLower lowerPath (Nat.repr i)) (segs ++ [Nat.repr i])
    let r2 := visitArr term rest lowerPath segs (i + 1)
    (r.1 ++ r2.1, r.2 || r2.2)

/-- The Object.entries loop of visitNode: the lowered key extends the
lowercased path, the raw key the segment list. -/
def visitObj (term : String) (fs : List (String × Json)) (lowerPath : String)
    (segs : List String) : List (List String) × Bool :=
  match fs with
  | [] => ([], false)
  | (k, v) :: rest =>
    let r := visitNode term v (joinLower lowerPath (lowerStr k)) (segs ++ [k])
    let r2 := visitObj term rest lowerPath segs
    (r.1 ++ r2.1, r.2 || r2.2)

end

structure VisibilityIndexResult where
  visiblePaths : List (List String)
  hasMatches : Bool

/-- Shallow embedding of buildVisibilityIndex: one depth-first walk from
the root with empty lowercased path and empty segment list. -/
def buildVisibilityIndex (node : Json) (normalizedSearchTerm : String) :
    VisibilityIndexResult :=
  let r := visitNode normalizedSearchTerm node "" []
  ⟨r.1, r.2⟩

/-- Swap oldValue and newValue and rename added and removed, the renaming
under which the diff is symmetric. -/
def swapType : DiffType → DiffType
  | .added => .removed
  | .removed => .added
  | .modified => .modified
  | .unchanged => .unchanged

def swapEntry (e : DiffResult) : DiffResult :=
  ⟨e.path, swapType e.type, e.newValue, e.oldValue⟩

/-- The body of the object loop of compareObjects for a single key, with
the same own-key reading of the source's in test as compareUnionKeys
(the none branches do not cover keys that spell Object.prototype member
names, where the source recurses into the inherited function). -/
def keyEntry (show0 : Bool) (path : String) (fs gs : List (String × Json))
    (k : String) : List DiffResult :=
  match lookupField fs k, lookupField gs k with
  | none, g => [⟨keyPath path k, .added, none, g⟩]
  | some v1, none => [⟨keyPath path k, .removed, some v1, none⟩]
  | some v1, some v2 => compareObjects show0 v1 v2 (keyPath path k)

theorem compareUnionKeys_eq_flatMap (show0 : Bool) (path : String)
    (fs gs : List (String × Json)) :
    ∀ ks, compareUnionKeys show0 path fs gs ks = ks.flatMap (keyEntry show0 path fs gs) := by
  intro ks
  induction ks with
  | nil => simp [compareUnionKeys]
  | cons k ks ih =>
    rw [compareUnionKeys, ih, List.flatMap_cons]
    congr 1
    unfold keyEntry
    cases hf : lookupField fs k <;> cases hg : lookupField gs k <;> simp [hf, hg]

theorem mem_dedupFirst : ∀ l k, k ∈ dedupFirst l ↔ k ∈ l
  | [], k => by simp [dedupFirst]
  | a :: l, k => by
    rw [dedupFirst]
    by_cases hk : k = a
    · simp [hk]
    · have := mem_dedupFirst (l.filter (fun k2 => k2 ≠ a)) k
      simp only [ne_eq, decide_not] at this ⊢
      simp [hk, this, List.mem_filter]
termination_by l => l.length
decreasing_by
  have := List.length_filter_le (fun k2 => !decide (k2 = a)) l
  simp only [ne_eq, decide_not, List.length_cons] at this ⊢
  omega

theorem nodup_dedupFirst : ∀ l, (dedupFirst l).Nodup
  | [] => by simp [dedupFirst]
  | a :: l => by
    rw [dedupFirst]
    refine List.nodup_cons.2 ⟨?_, nodup_dedupFirst (l.filter (fun k2 => k2 ≠ a))⟩
    rw [mem_dedupFirst]
    simp
termination_by l => l.length
decreasing_by
  have := List.length_filter_le (fun k2 => !decide (k2 = a)) l
  simp only [ne_eq, decide_not, List.length_cons] at this ⊢
  omega

theorem filter_ne_eq_self_of_not_mem {b : String} {B : List String} (hb : ¬ b ∈ B) :
    B.filter (fun k2 => k2 ≠ b) = B := by
  rw [List.filter_eq_self]
  intro x hx
  simp only [ne_eq, decide_eq_true_eq]
  exact fun h => hb (h ▸ hx)

theorem dedupFirst_eq_self_of_nodup : ∀ B : List String, B.Nodup → dedupFirst B = B := by
  intro B
  induction B with
  | nil => intro _; simp [dedupFirst]
  | cons b B ih =>
    intro hB
    rw [dedupFirst, filter_ne_eq_self_of_not_mem (List.nodup_cons.1 hB).1,
      ih (List.nodup_cons.1 hB).2]

theorem dedupFirst_append_nodup :
    ∀ A B : List String, A.Nodup → B.Nodup →
      dedupFirst (A ++ B) = A ++ B.filter (fun k => !A.contains k)
  | [], B => by
    intro _ hB
    rw [List.nil_append, dedupFirst_eq_self_of_nodup B hB, List.nil_append]
    conv => lhs; rw [← List.filter_true B]
    apply List.filter_congr
    intro x hx
    simp
  | a :: A, B => by
    intro hA hB
    rw [List.cons_append, dedupFirst, List.filter_append,
      filter_ne_eq_self_of_not_mem (List.nodup_cons.1 hA).1,
      dedupFirst_append_nodup A (B.filter (fun k2 => k2 ≠ a))
        (List.nodup_cons.1 hA).2 (hB.filter _), List.filter_filter]
    simp only [List.cons_append, List.cons.injEq, List.append_cancel_left_eq, true_and]
    apply List.filter_congr
    intro x hx
    by_cases h1 : x = a <;> by_cases h2 : x ∈ A <;>
      simp [h1, h2, List.elem_eq_mem]

theorem compareObjects_null {a b : Json} (h : a = Json.null ∨ b = Json.null)
    (s : Bool) (p : String) :
    compareObjects s a b p =
      if a = b then []
      else [⟨rootify p, if a = Json.null then .added else .removed, some a, some b⟩] := by
  rw [compareObjects]
  all_goals try (intro u v h1 h2; first
    | (subst h1; subst h2; simp_all [jsTypeof, Json.isArr])
    | simp at h1)
  simp only [if_pos h]

theorem compareObjects_kind {a b : Json} (h : ¬(a = Json.null ∨ b = Json.null))
    (hk : jsTypeof a ≠ jsTypeof b ∨ a.isArr ≠ b.isArr) (s : Bool) (p : String) :
    compareObjects s a b p = [⟨rootify p, .modified, some a, some b⟩] := by
  rw [compareObjects]
  all_goals try (intro u v h1 h2; first
    | (subst h1; subst h2; simp_all [jsTypeof, Json.isArr])
    | simp at h1)
  rw [if_neg h, if_pos hk]

theorem compareObjects_arr (s : Bool) (xs ys : List Json) (p : String) :
    compareObjects s (.arr xs) (.arr ys) p = compareArrayItems s p 0 xs ys := by
  rw [compareObjects]
  all_goals try (intro u v h1 h2; first
    | (subst h1; subst h2; simp_all [jsTypeof, Json.isArr])
    | simp at h1)
  simp [jsTypeof, Json.isArr]

theorem compareObjects_obj (s : Bool) (fs gs : List (String × Json)) (p : String) :
    compareObjects s (.obj fs) (.obj gs) p = compareUnionKeys s p fs gs (unionKeys fs gs) := by
  rw [compareObjects]
  all_goals try (intro u v h1 h2; first
    | (subst h1; subst h2; simp_all [jsTypeof, Json.isArr])
    | simp at h1)
  simp [jsTypeof, Json.isArr]

theorem compareObjects_bool (s : Bool) (x y : Bool) (p : String) :
    compareObjects s (.bool x) (.bool y) p =
      if x ≠ y then [⟨rootify p, .modified, some (.bool x), some (.bool y)⟩]
      else if !s then [⟨rootify p, .unchanged, some (.bool x), some (.bool y)⟩]
      else [] := by
  rw [compareObjects]
  all_goals try (intro u v h1 h2; first
    | (subst h1; subst h2; simp_all [jsTypeof, Json.isArr])
    | simp at h1)
  by_cases h : x = y <;> simp [jsTypeof, Json.isArr, h] <;>
    (intro u v h1 h2; simp at h1)

theorem compareObjects_num (s : Bool) (x y : Int) (p : String) :
    compareObjects s (.num x) (.num y) p =
      if x ≠ y then [⟨rootify p, .modified, some (.num x), some (.num y)⟩]
      else if !s then [⟨rootify p, .unchanged, some (.num x), some (.num y)⟩]
      else [] := by
  rw [compareObjects]
  all_goals try (intro u v h1 h2; first
    | (subst h1; subst h2; simp_all [jsTypeof, Json.isArr])
    | simp at h1)
  by_cases h : x = y <;> simp [jsTypeof, Json.isArr, h] <;>
    (intro u v h1 h2; simp at h1)

theorem compareObjects_str (s : Bool) (x y : String) (p : String) :
    compareObjects s (.str x) (.str y) p =
      if x ≠ y then [⟨rootify p, .modified, some (.str x), some (.str y)⟩]
      else if !s then [⟨rootify p, .unchanged, some (.str x), some (.str y)⟩]
      else [] := by
  rw [compareObjects]
  all_goals try (intro u v h1 h2; first
    | (subst h1; subst h2; simp_all [jsTypeof, Json.isArr])
    | simp at h1)
  by_cases h : x = y <;> simp [jsTypeof, Json.isArr, h] <;>
    (intro u v h1 h2; simp at h1)

theorem compareArrayItems_nil_left_swap (s : Bool) (p : String) :
    ∀ ys i, (compareArrayItems s p i [] ys).map swapEntry = compareArrayItems s p i ys [] := by
  intro ys
  induction ys with
  | nil => intro i; simp [compareArrayItems]
  | cons y ys ih =>
    intro i
    simp only [compareArrayItems, List.map_cons, ih]
    rfl

theorem compareArrayItems_nil_right_swap (s : Bool) (p : String) :
    ∀ xs i, (compareArrayItems s p i xs []).map swapEntry = compareArrayItems s p i [] xs := by
  intro xs
  induction xs with
  | nil => intro i; simp [compareArrayItems]
  | cons x xs ih =>
    intro i
    simp only [compareArrayItems, List.map_cons, ih]
    rfl

theorem compareArrayItems_swap_of (s : Bool) (p : String) :
    ∀ xs ys,
      (∀ x ∈ xs, ∀ y ∈ ys, ∀ p2,
        ((compareObjects s x y p2).map swapEntry).Perm (compareObjects s y x p2)) →
      ∀ i, ((compareArrayItems s p i xs ys).map swapEntry).Perm (compareArrayItems s p i ys xs) := by
  intro xs
  induction xs with
  | nil =>
    intro ys _ i
    rw [compareArrayItems_nil_left_swap]
  | cons x xs ih =>
    intro ys H i
    cases ys with
    | nil => rw [compareArrayItems_nil_right_swap]
    | cons y ys =>
      simp only [compareArrayItems, List.map_append]
      exact (H x (by simp) y (by simp) (idxPath p i)).append
        (ih ys (fun z hz w hw p2 => H z (by simp [hz]) w (by simp [hw]) p2) (i + 1))

theorem lookupField_isSome_of_mem {fs : List (String × Json)} {k : String}
    (h : k ∈ fs.map Prod.fst) : (lookupField fs k).isSome = true := by
  induction fs with
  | nil => simp at h
  | cons kv fs ih =>
    obtain ⟨k1, v1⟩ := kv
    rw [lookupField]
    by_cases hk : k1 = k
    · simp [hk]
    · simp only [List.map_cons, List.mem_cons] at h
      rcases h with h | h
      · exact absurd h.symm hk
      · simp [hk, ih h]

theorem keyEntry_swap_of (s : Bool) (p : String) (fs gs : List (String × Json)) (k : String)
    (hk : (lookupField fs k).isSome = true ∨ (lookupField gs k).isSome = true)
    (Hrec : ∀ v1 v2, lookupField fs k = some v1 → lookupField gs k = some v2 →
      ((compareObjects s v1 v2 (keyPath p k)).map swapEntry).Perm
        (compareObjects s v2 v1 (keyPath p k))) :
    ((keyEntry s p fs gs k).map swapEntry).Perm (keyEntry s p gs fs k) := by
  rw [keyEntry, keyEntry]
  cases hf : lookupField fs k with
  | none =>
    cases hg : lookupField gs k with
    | none => rw [hf, hg] at hk; simp at hk
    | some v2 => simp [swapEntry, swapType]
  | some v1 =>
    cases hg : lookupField gs k with
    | none => simp [swapEntry, swapType]
    | some v2 => exact Hrec v1 v2 hf hg

theorem unionKeys_comm_perm (fs gs : List (String × Json)) :
    (unionKeys fs gs).Perm (unionKeys gs fs) := by
  rw [unionKeys, unionKeys,
    List.perm_ext_iff_of_nodup (nodup_dedupFirst _) (nodup_dedupFirst _)]
  intro k
  rw [mem_dedupFirst, mem_dedupFirst, List.mem_append, List.mem_append]
  exact Or.comm

theorem compareObjects_swap : ∀ (s : Bool) (a b : Json) (p : String),
    ((compareObjects s a b p).map swapEntry).Perm (compareObjects s b a p)
  | s, a, b, p => by
    by_cases hn : a = Json.null ∨ b = Json.null
    · rw [compareObjects_null hn, compareObjects_null (Or.symm hn)]
      by_cases he : a = b
      · simp [he]
      · have he2 : ¬ b = a := fun h2 => he h2.symm
        rw [if_neg he, if_neg he2]
        rcases hn with h | h
        · subst h
          have hb : ¬ b = Json.null := fun h2 => he h2.symm
          simp [swapEntry, swapType, hb]
        · subst h
          have ha : ¬ a = Json.null := he
          simp [swapEntry, swapType, ha]
    · by_cases hkind : jsTypeof a ≠ jsTypeof b ∨ a.isArr ≠ b.isArr
      · have hn2 : ¬(b = Json.null ∨ a = Json.null) := fun h2 => hn (Or.symm h2)
        have hkind2 : jsTypeof b ≠ jsTypeof a ∨ b.isArr ≠ a.isArr := by
          rcases hkind with h | h
          · exact Or.inl (Ne.symm h)
          · exact Or.inr (Ne.symm h)
        rw [compareObjects_kind hn hkind, compareObjects_kind hn2 hkind2]
        simp [swapEntry, swapType]
      · push_neg at hn hkind
        obtain ⟨hn1, hn2⟩ := hn
        obtain ⟨ht, hi⟩ := hkind
        cases a with
        | null => exact absurd rfl hn1
        | bool x =>
          cases b <;> simp [jsTypeof] at ht <;> try (exact absurd rfl hn2)
          rename_i y
          rw [compareObjects_bool, compareObjects_bool]
          by_cases hxy : x = y
          · subst hxy
            cases s <;> simp [swapEntry, swapType] <;> exact List.Perm.refl _
          · have hyx : ¬ y = x := fun h2 => hxy h2.symm
            simp [hxy, hyx, swapEntry, swapType]
        | num x =>
          cases b <;> simp [jsTypeof] at ht <;> try (exact absurd rfl hn2)
          rename_i y
          rw [compareObjects_num, compareObjects_num]
          by_cases hxy : x = y
          · subst hxy
            cases s <;> simp [swapEntry, swapType] <;> exact List.Perm.refl _
          · have hyx : ¬ y = x := fun h2 => hxy h2.symm
            simp [hxy, hyx, swapEntry, swapType]
        | str x =>
          cases b <;> simp [jsTypeof] at ht <;> try (exact absurd rfl hn2)
          rename_i y
          rw [compareObjects_str, compareObjects_str]
          by_cases hxy : x = y
          · subst hxy
            cases s <;> simp [swapEntry, swapType] <;> exact List.Perm.refl _
          · have hyx : ¬ y = x := fun h2 => hxy h2.symm
            simp [hxy, hyx, swapEntry, swapType]
        | arr xs =>
          cases b <;> simp [jsTypeof] at ht <;>
            first
              | exact absurd rfl hn2
              | (simp [Json.isArr] at hi)
              | skip
          rename_i ys
          rw [compareObjects_arr, compareObjects_arr]
          exact compareArrayItems_swap_of s p xs ys
            (fun x hx y hy p2 => compareObjects_swap s x y p2) 0
        | obj fs =>
          cases b <;> simp [jsTypeof] at ht <;>
            first
              | exact absurd rfl hn2
              | (simp [Json.isArr] at hi)
              | skip
          rename_i gs
          rw [compareObjects_obj, compareObjects_obj,
            compareUnionKeys_eq_flatMap, compareUnionKeys_eq_flatMap, List.map_flatMap]
          refine List.Perm.trans (List.Perm.flatMap_left (unionKeys fs gs) ?_)
            (List.Perm.flatMap_right _ (unionKeys_comm_perm fs gs))
          intro k hk
          refine keyEntry_swap_of s p fs gs k ?_ ?_
          · rw [unionKeys] at hk
            have hm := (mem_dedupFirst _ k).1 hk
            rw [List.mem_append] at hm
            rcases hm with h | h
            · exact Or.inl (lookupField_isSome_of_mem h)
            · exact Or.inr (lookupField_isSome_of_mem h)
          · intro v1 v2 h1 h2
            exact compareObjects_swap s v1 v2 (keyPath p k)
termination_by s a b p => sizeOf a + sizeOf b
decreasing_by
  · have d1 := List.sizeOf_lt_of_mem hx
    have d2 := List.sizeOf_lt_of_mem hy
    simp only [Json.arr.sizeOf_spec]
    omega
  · have d1 := lookupField_size _ _ _ h1
    have d2 := lookupField_size _ _ _ h2
    simp only [Json.obj.sizeOf_spec] at *
    omega

mutual

/-- Well-formed JSON: object keys are pairwise distinct at every level, as
they are in any value produced by JSON.parse. -/
def wfJson : Json → Bool
  | .null => true
  | .bool _ => true
  | .num _ => true
  | .str _ => true
  | .arr xs => wfArr xs
  | .obj fs => (fs.map Prod.fst).Nodup && wfObj fs

def wfArr : List Json → Bool
  | [] => true
  | x :: xs => wfJson x && wfArr xs

def wfObj : List (String × Json) → Bool
  | [] => true
  | (_, v) :: fs => wfJson v && wfObj fs

end

mutual

/-- Per-leaf Unchanged entries predicted by the (amended) diff identity
law: one entry for every boolean, number or string leaf, none for null
leaves, since a null is consumed by the null/undefined screen before the
unchanged push is reached. -/
def unchangedLeaves : Json → String → List DiffResult
  | .null, _ => []
  | .bool b, p => [⟨rootify p, .unchanged, some (.bool b), some (.bool b)⟩]
  | .num n, p => [⟨rootify p, .unchanged, some (.num n), some (.num n)⟩]
  | .str s, p => [⟨rootify p, .unchanged, some (.str s), some (.str s)⟩]
  | .arr xs, p => unchangedArr xs p 0
  | .obj fs, p => unchangedObj fs p

def unchangedArr : List Json → String → Nat → List DiffResult
  | [], _, _ => []
  | x :: xs, p, i => unchangedLeaves x (idxPath p i) ++ unchangedArr xs p (i + 1)

def unchangedObj : List (String × Json) → String → List DiffResult
  | [], _ => []
  | (k, v) :: fs, p => unchangedLeaves v (keyPath p k) ++ unchangedObj fs p

end

theorem compareArrayItems_self_empty_of (p : String) (xs : List Json)
    (H : ∀ x ∈ xs, ∀ p2, compareObjects true x x p2 = []) :
    ∀ i, compareArrayItems true p i xs xs = [] := by
  induction xs with
  | nil => intro i; rw [compareArrayItems]
  | cons x xs ih =>
    intro i
    rw [compareArrayItems, H x (by simp), List.nil_append]
    exact ih (fun z hz p2 => H z (by simp [hz]) p2) (i + 1)

theorem compareUnionKeys_self_empty_of (p : String) (fs : List (String × Json))
    (H : ∀ k v, lookupField fs k = some v → ∀ p2, compareObjects true v v p2 = []) :
    ∀ ks, (∀ k ∈ ks, (lookupField fs k).isSome = true) →
      compareUnionKeys true p fs fs ks = [] := by
  intro ks
  induction ks with
  | nil => intro _; rw [compareUnionKeys]
  | cons k ks ih =>
    intro hks
    rw [compareUnionKeys]
    have hs := hks k (by simp)
    cases hf : lookupField fs k with
    | none => rw [hf] at hs; simp at hs
    | some v =>
      simp only [hf]
      rw [H k v hf, List.nil_append]
      exact ih (fun z hz => hks z (by simp [hz]))

theorem compareObjects_self_empty : ∀ (v : Json) (p : String),
    compareObjects true v v p = []
  | v, p => by
    by_cases hn : v = Json.null ∨ v = Json.null
    · rw [compareObjects_null hn, if_pos rfl]
    · cases v with
      | null => exact absurd (Or.inl rfl) hn
      | bool x => rw [compareObjects_bool]; simp
      | num x => rw [compareObjects_num]; simp
      | str x => rw [compareObjects_str]; simp
      | arr xs =>
        rw [compareObjects_arr]
        exact compareArrayItems_self_empty_of p xs
          (fun x hx p2 => compareObjects_self_empty x p2) 0
      | obj fs =>
        rw [compareObjects_obj]
        refine compareUnionKeys_self_empty_of p fs
          (fun k v hkv p2 => compareObjects_self_empty v p2) (unionKeys fs fs) ?_
        intro k hk
        rw [unionKeys] at hk
        have hm := (mem_dedupFirst _ k).1 hk
        rw [List.mem_append] at hm
        exact lookupField_isSome_of_mem (hm.elim id id)
termination_by v p => sizeOf v
decreasing_by
  · have := List.sizeOf_lt_of_mem hx
    simp only [Json.arr.sizeOf_spec]
    omega
  · have := lookupField_size _ _ _ hkv
    simp only [Json.obj.sizeOf_spec] at *
    omega

theorem compareArrayItems_self_unch_of (p : String) (xs : List Json)
    (H : ∀ x ∈ xs, ∀ p2, compareObjects false x x p2 = unchangedLeaves x p2) :
    ∀ i, compareArrayItems false p i xs xs = unchangedArr xs p i := by
  induction xs with
  | nil => intro i; rw [compareArrayItems, unchangedArr]
  | cons x xs ih =>
    intro i
    rw [compareArrayItems, unchangedArr, H x (by simp)]
    exact congrArg _ (ih (fun z hz p2 => H z (by simp [hz]) p2) (i + 1))

theorem keyEntry_congr (s : Bool) (p : String) {fs gs fs2 gs2 : List (String × Json)}
    {k : String} (h1 : lookupField fs k = lookupField fs2 k)
    (h2 : lookupField gs k = lookupField gs2 k) :
    keyEntry s p fs gs k = keyEntry s p fs2 gs2 k := by
  rw [keyEntry, keyEntry, h1, h2]

theorem compareUnionKeys_congr (s : Bool) (p : String)
    (fs gs fs2 gs2 : List (String × Json)) :
    ∀ ks, (∀ k ∈ ks, lookupField fs k = lookupField fs2 k ∧
        lookupField gs k = lookupField gs2 k) →
      compareUnionKeys s p fs gs ks = compareUnionKeys s p fs2 gs2 ks := by
  intro ks hks
  rw [compareUnionKeys_eq_flatMap, compareUnionKeys_eq_flatMap]
  apply List.flatMap_congr
  intro k hk
  exact keyEntry_congr s p (hks k hk).1 (hks k hk).2

theorem lookupField_cons_ne {k1 k : String} {v1 : Json} {fs : List (String × Json)}
    (h : ¬ k1 = k) : lookupField ((k1, v1) :: fs) k = lookupField fs k := by
  rw [lookupField, if_neg h]

theorem lookupField_mem_keys (fs : List (String × Json)) (k : String) (v : Json)
    (h : lookupField fs k = some v) : k ∈ fs.map Prod.fst := by
  induction fs with
  | nil => simp [lookupField] at h
  | cons kv fs ih =>
    obtain ⟨k1, v1⟩ := kv
    rw [lookupField] at h
    by_cases hk : k1 = k
    · simp [hk]
    · rw [if_neg hk] at h
      simp [ih h]

theorem compareUnionKeys_self_unch_of (p : String) :
    ∀ fs : List (String × Json),
      (fs.map Prod.fst).Nodup →
      (∀ k v, lookupField fs k = some v → ∀ p2,
        compareObjects false v v p2 = unchangedLeaves v p2) →
      compareUnionKeys false p fs fs (fs.map Prod.fst) = unchangedObj fs p := by
  intro fs
  induction fs with
  | nil =>
    intro _ _
    rw [compareUnionKeys_eq_flatMap]
    simp [unchangedObj]
  | cons kv fs ih =>
    intro hnd H
    obtain ⟨k, v⟩ := kv
    rw [List.map_cons] at hnd
    have hnc := List.nodup_cons.1 hnd
    rw [List.map_cons, compareUnionKeys_eq_flatMap, List.flatMap_cons,
      ← compareUnionKeys_eq_flatMap, unchangedObj]
    have hk : lookupField ((k, v) :: fs) k = some v := by rw [lookupField]; simp
    have hke : keyEntry false p ((k, v) :: fs) ((k, v) :: fs) k =
        compareObjects false v v (keyPath p k) := by
      rw [keyEntry, hk]
    rw [hke, H k v hk]
    congr 1
    rw [compareUnionKeys_congr false p ((k, v) :: fs) ((k, v) :: fs) fs fs
      (fs.map Prod.fst) ?_]
    · exact ih hnc.2
        (fun k2 v2 h2 p2 => H k2 v2 (by
          rw [lookupField_cons_ne]
          · exact h2
          · intro hkk
            exact hnc.1 (hkk ▸ lookupField_mem_keys fs k2 v2 h2)) p2)
    · intro k2 hk2
      constructor <;>
        (rw [lookupField_cons_ne]; intro hkk; exact hnc.1 (hkk ▸ hk2))

theorem unionKeys_self (fs : List (String × Json)) (hnd : (fs.map Prod.fst).Nodup) :
    unionKeys fs fs = fs.map Prod.fst := by
  rw [unionKeys, dedupFirst_append_nodup _ _ hnd hnd]
  have : (fs.map Prod.fst).filter (fun k => !(fs.map Prod.fst).contains k) = [] := by
    rw [List.filter_eq_nil_iff]
    intro a ha
    simp [List.elem_eq_mem, ha]
  rw [this, List.append_nil]

theorem compareObjects_self_unch : ∀ (v : Json) (p : String), wfJson v = true →
    compareObjects false v v p = unchangedLeaves v p
  | v, p => by
    intro hwf
    cases v with
    | null => rw [compareObjects_null (Or.inl rfl), if_pos rfl, unchangedLeaves]
    | bool x => rw [compareObjects_bool, unchangedLeaves]; simp
    | num x => rw [compareObjects_num, unchangedLeaves]; simp
    | str x => rw [compareObjects_str, unchangedLeaves]; simp
    | arr xs =>
      rw [compareObjects_arr, unchangedLeaves]
      refine compareArrayItems_self_unch_of p xs ?_ 0
      intro x hx p2
      refine compareObjects_self_unch x p2 ?_
      rw [wfJson] at hwf
      revert hwf hx
      clear p p2
      induction xs with
      | nil => intro h hx; simp at hx
      | cons z zs ih =>
        intro h hx
        rw [wfArr, Bool.and_eq_true] at h
        rcases List.mem_cons.1 hx with h2 | h2
        · exact h2 ▸ h.1
        · exact ih h.2 h2
    | obj fs =>
      rw [compareObjects_obj, unchangedLeaves]
      rw [wfJson, Bool.and_eq_true, decide_eq_true_eq] at hwf
      rw [unionKeys_self fs hwf.1]
      refine compareUnionKeys_self_unch_of p fs hwf.1 ?_
      intro k v2 hkv p2
      refine compareObjects_self_unch v2 p2 ?_
      have hv2 := hwf.2
      clear hwf p p2
      induction fs with
      | nil => simp [lookupField] at hkv
      | cons kv fs ih =>
        obtain ⟨k1, v1⟩ := kv
        rw [wfObj, Bool.and_eq_true] at hv2
        rw [lookupField] at hkv
        by_cases hk : k1 = k
        · rw [if_pos hk] at hkv
          cases hkv
          exact hv2.1
        · rw [if_neg hk] at hkv
          exact ih hkv hv2.2
termination_by v p => sizeOf v
decreasing_by
  · have := List.sizeOf_lt_of_mem hx
    simp only [Json.arr.sizeOf_spec]
    omega
  · have := lookupField_size _ _ _ hkv
    simp only [Json.obj.sizeOf_spec] at *
    omega

/-- Claim C1 counterexample: the claim demands one Unchanged entry per
leaf scalar including null leaves, so diff(null, null, true) should be a
one-entry list; the code returns the empty list, because the
null/undefined screen returns before the unchanged push is reached. -/
theorem claim_C1_counterexample : diff Json.null Json.null true = [] := by
  rw [diff, compareObjects_null (Or.inl rfl), if_pos rfl]

/-- Claim C1 (amended): diff(v, v, false) is empty for every v, and for
well-formed v (distinct object keys), diff(v, v, true) is exactly one
Unchanged entry per non-null leaf scalar of v, in depth-first order; null
leaves produce no entry. -/
theorem claim_C1_diff_identity (v : Json) :
    diff v v false = [] ∧
      (wfJson v = true → diff v v true = unchangedLeaves v "") := by
  constructor
  · rw [diff]
    exact compareObjects_self_empty v ""
  · intro h
    rw [diff]
    exact compareObjects_self_unch v "" h

/-- Witness for claim C1 at a concrete well-formed value. -/
theorem claim_C1_witness :
    wfJson (Json.obj [("a", Json.arr [Json.num 1, Json.str "x", Json.null]),
        ("b", Json.bool true)]) = true ∧
    diff (Json.obj [("a", Json.arr [Json.num 1, Json.str "x", Json.null]),
        ("b", Json.bool true)])
      (Json.obj [("a", Json.arr [Json.num 1, Json.str "x", Json.null]),
        ("b", Json.bool true)]) true =
      unchangedLeaves (Json.obj [("a", Json.arr [Json.num 1, Json.str "x", Json.null]),
        ("b", Json.bool true)]) "" :=
  ⟨by decide,
   (claim_C1_diff_identity (Json.obj [("a", Json.arr [Json.num 1, Json.str "x", Json.null]),
     ("b", Json.bool true)])).2 (by decide)⟩

/-- Claim C2: swapping oldValue and newValue and renaming Added to
Removed and Removed to Added in every entry of diff(a, b, f) yields, as a
set of entries, exactly diff(b, a, f). -/
theorem claim_C2_diff_symmetry (a b : Json) (f : Bool) (e : DiffResult) :
    e ∈ (diff a b f).map swapEntry ↔ e ∈ diff b a f :=
  (compareObjects_swap (!f) a b "").mem_iff

/-- Claim C3 counterexample: a JSON null old side against a number is not
compared as an ordinary value; the root call itself emits an Added entry
at the root path. -/
theorem claim_C3_counterexample :
    diff Json.null (Json.num 5) false =
      [⟨"root", DiffType.added, some Json.null, some (Json.num 5)⟩] := by
  rw [diff, compareObjects_null (Or.inl rfl)]
  simp [rootify]

/-- Claim C3 (amended): a JSON null on either side is treated as the
absence sentinel, including at the root: whenever one side is null and
the sides differ, diff returns the single entry at the root path, Added
when the old side is null and Removed when it is not, with both values
attached; Added and Removed entries therefore also arise from null
comparisons, not only from array-length mismatches and object key-set
asymmetry. -/
theorem claim_C3_null_sentinel (a b : Json) (f : Bool)
    (h : a = Json.null ∨ b = Json.null) :
    diff a b f =
      if a = b then []
      else [⟨"root", if a = Json.null then DiffType.added else DiffType.removed,
        some a, some b⟩] := by
  rw [diff, compareObjects_null h]
  simp [rootify]

/-- Witness for claim C3 at null versus a boolean. -/
theorem claim_C3_witness :
    diff Json.null (Json.bool true) true =
      [⟨"root", DiffType.added, some Json.null, some (Json.bool true)⟩] := by
  rw [claim_C3_null_sentinel Json.null (Json.bool true) true (Or.inl rfl)]
  simp

/-- Claim C4 counterexample: a boolean against null have different
runtime kinds, yet the entry emitted is Removed, not Modified, because
the null screen precedes the kind check. -/
theorem claim_C4_counterexample :
    diff (Json.bool true) Json.null false =
      [⟨"root", DiffType.removed, some (Json.bool true), some Json.null⟩] := by
  rw [diff, compareObjects_null (Or.inr rfl)]
  simp [rootify]

/-- Claim C4 (amended): for two non-null values of different runtime
kinds (typeof differs, or exactly one side is an array), the comparison
emits exactly one Modified entry at the current path carrying both
values, with no recursion into either value. -/
theorem claim_C4_kind_mismatch (s : Bool) (a b : Json) (p : String)
    (ha : a ≠ Json.null) (hb : b ≠ Json.null)
    (hk : jsTypeof a ≠ jsTypeof b ∨ a.isArr ≠ b.isArr) :
    compareObjects s a b p = [⟨rootify p, DiffType.modified, some a, some b⟩] :=
  compareObjects_kind (fun h => h.elim ha hb) hk s p

/-- Witness for claim C4: an object against an array gives a single
Modified entry at the root. -/
theorem claim_C4_witness :
    diff (Json.obj [("x", Json.num 1)]) (Json.arr [Json.num 1, Json.num 2]) false =
      [⟨"root", DiffType.modified, some (Json.obj [("x", Json.num 1)]),
        some (Json.arr [Json.num 1, Json.num 2])⟩] := by
  have h := claim_C4_kind_mismatch true (Json.obj [("x", Json.num 1)])
    (Json.arr [Json.num 1, Json.num 2]) "" (by decide) (by decide) (by decide)
  simpa [diff, rootify] using h

/-- Claim C6: the object loop iterates the deterministic ordered union
of the own keys of the two objects (unionKeys is the list the object
branch of compareObjects walks): old keys first in their original order,
then new-only keys in their original order; and on the concrete example
the diff is exactly the Removed entry at a with oldValue 1 and the Added
entry at c with newValue 3, and no entry for b.  The per-key
added/removed/recurse classification is deliberately not asserted in
general: the source decides per-key presence with the JS in operator,
which also sees inherited Object.prototype members for keys such as
toString, while the example keys carry no such collision. -/
theorem claim_C6_object_key_union :
    (∀ fs gs : List (String × Json),
      (fs.map Prod.fst).Nodup → (gs.map Prod.fst).Nodup →
      unionKeys fs gs =
        fs.map Prod.fst ++ (gs.map Prod.fst).filter
          (fun k => !(fs.map Prod.fst).contains k)) ∧
    diff (Json.obj [("a", Json.num 1), ("b", Json.num 2)])
        (Json.obj [("b", Json.num 2), ("c", Json.num 3)]) false =
      [⟨"a", DiffType.removed, some (Json.num 1), none⟩,
       ⟨"c", DiffType.added, none, some (Json.num 3)⟩] := by
  constructor
  · intro fs gs h1 h2
    rw [unionKeys, dedupFirst_append_nodup _ _ h1 h2]
  · simp [diff, compareObjects, compareUnionKeys, unionKeys, dedupFirst,
      lookupField, keyPath, rootify, jsTypeof, Json.isArr]

/-- Witness for claim C6 on concrete disjoint objects. -/
theorem claim_C6_witness :
    unionKeys [("a", Json.num 1)] [("b", Json.num 2)] =
      [("a", Json.num 1)].map Prod.fst ++
        ([("b", Json.num 2)].map Prod.fst).filter
          (fun k => !([("a", Json.num 1)].map Prod.fst).contains k) :=
  claim_C6_object_key_union.1 [("a", Json.num 1)] [("b", Json.num 2)]
    (by decide) (by decide)

/-- Claim C8 counterexample: the path built with object key a then array
index 0 equals the path built with object key a then object key the
string 0, because the renderer pushes String(index); the claim asserted
they are distinct. -/
theorem claim_C8_counterexample :
    extendIndex (extendPath [] "a") 0 = extendPath (extendPath [] "a") "0" := by
  decide

/-- Claim C8 (amended): a path is the sequence of string segments pushed
while descending; an array index i is pushed as its decimal string, so it
is identified with the object key of the same spelling, and two
extensions of one path are equal exactly when the pushed segments are
equal. -/
theorem claim_C8_path_identity :
    (∀ (p : List String) (i : Nat), extendIndex p i = extendPath p (Nat.repr i)) ∧
    (∀ (p : List String) (k1 k2 : String),
      extendPath p k1 = extendPath p k2 ↔ k1 = k2) := by
  constructor
  · intro p i
    rfl
  · intro p k1 k2
    simp [extendPath]

/-- The (amended) shape invariant of a single diff entry: Added carries
no oldValue unless it came from the null screen, in which case the
oldValue is the JSON null itself; dually for Removed; Modified and
Unchanged always carry both values. -/
def entryShapeOk (e : DiffResult) : Prop :=
  (e.type = DiffType.added → e.oldValue = none ∨ e.oldValue = some Json.null) ∧
  (e.type = DiffType.removed → e.newValue = none ∨ e.newValue = some Json.null) ∧
  ((e.type = DiffType.modified ∨ e.type = DiffType.unchanged) →
    e.oldValue.isSome = true ∧ e.newValue.isSome = true)

theorem compareArrayItems_nil_left_shape (s : Bool) (p : String) :
    ∀ ys i e, e ∈ compareArrayItems s p i [] ys → entryShapeOk e := by
  intro ys
  induction ys with
  | nil => intro i e he; rw [compareArrayItems] at he; simp at he
  | cons y ys ih =>
    intro i e he
    rw [compareArrayItems] at he
    rcases List.mem_cons.1 he with h | h
    · subst h; simp [entryShapeOk]
    · exact ih (i + 1) e h

theorem compareArrayItems_nil_right_shape (s : Bool) (p : String) :
    ∀ xs i e, e ∈ compareArrayItems s p i xs [] → entryShapeOk e := by
  intro xs
  induction xs with
  | nil => intro i e he; rw [compareArrayItems] at he; simp at he
  | cons x xs ih =>
    intro i e he
    rw [compareArrayItems] at he
    rcases List.mem_cons.1 he with h | h
    · subst h; simp [entryShapeOk]
    · exact ih (i + 1) e h

theorem compareArrayItems_shape_of (s : Bool) (p : String) :
    ∀ xs ys,
      (∀ x ∈ xs, ∀ y ∈ ys, ∀ p2 e, e ∈ compareObjects s x y p2 → entryShapeOk e) →
      ∀ i e, e ∈ compareArrayItems s p i xs ys → entryShapeOk e := by
  intro xs
  induction xs with
  | nil => intro ys _ i e he; exact compareArrayItems_nil_left_shape s p ys i e he
  | cons x xs ih =>
    intro ys H i e he
    cases ys with
    | nil => exact compareArrayItems_nil_right_shape s p (x :: xs) i e he
    | cons y ys =>
      rw [compareArrayItems, List.mem_append] at he
      rcases he with h | h
      · exact H x (by simp) y (by simp) (idxPath p i) e h
      · exact ih ys (fun z hz w hw => H z (by simp [hz]) w (by simp [hw])) (i + 1) e h

theorem keyEntry_shape_of (s : Bool) (p : String) (fs gs : List (String × Json)) (k : String)
    (H : ∀ v1 v2, lookupField fs k = some v1 → lookupField gs k = some v2 →
      ∀ e, e ∈ compareObjects s v1 v2 (keyPath p k) → entryShapeOk e) :
    ∀ e, e ∈ keyEntry s p fs gs k → entryShapeOk e := by
  intro e he
  rw [keyEntry] at he
  cases hf : lookupField fs k with
  | none =>
    rw [hf] at he
    simp at he
    subst he
    simp [entryShapeOk]
  | some v1 =>
    cases hg : lookupField gs k with
    | none =>
      rw [hf, hg] at he
      simp at he
      subst he
      simp [entryShapeOk]
    | some v2 =>
      rw [hf, hg] at he
      exact H v1 v2 hf hg e he

theorem compareObjects_shape : ∀ (s : Bool) (a b : Json) (p : String) (e : DiffResult),
    e ∈ compareObjects s a b p → entryShapeOk e
  | s, a, b, p, e => by
    intro he
    by_cases hn : a = Json.null ∨ b = Json.null
    · rw [compareObjects_null hn] at he
      by_cases hab : a = b
      · simp [hab] at he
      · rw [if_neg hab] at he
        simp only [List.mem_singleton] at he
        subst he
        rcases hn with h | h
        · subst h
          simp [entryShapeOk]
        · subst h
          by_cases han : a = Json.null
          · simp [han, entryShapeOk]
          · simp [han, entryShapeOk]
    · by_cases hk : jsTypeof a ≠ jsTypeof b ∨ a.isArr ≠ b.isArr
      · rw [compareObjects_kind hn hk] at he
        simp only [List.mem_singleton] at he
        subst he
        simp [entryShapeOk]
      · push_neg at hn hk
        obtain ⟨hn1, hn2⟩ := hn
        obtain ⟨ht, hi⟩ := hk
        cases a with
        | null => exact absurd rfl hn1
        | bool x =>
          cases b <;> simp [jsTypeof] at ht
          rename_i y
          rw [compareObjects_bool] at he
          by_cases hxy : x = y <;> cases s <;>
            simp [hxy, entryShapeOk] at he ⊢ <;>
            (try subst he) <;> simp [entryShapeOk]
        | num x =>
          cases b <;> simp [jsTypeof] at ht
          rename_i y
          rw [compareObjects_num] at he
          by_cases hxy : x = y <;> cases s <;>
            simp [hxy, entryShapeOk] at he ⊢ <;>
            (try subst he) <;> simp [entryShapeOk]
        | str x =>
          cases b <;> simp [jsTypeof] at ht
          rename_i y
          rw [compareObjects_str] at he
          by_cases hxy : x = y <;> cases s <;>
            simp [hxy, entryShapeOk] at he ⊢ <;>
            (try subst he) <;> simp [entryShapeOk]
        | arr xs =>
          cases b <;> simp [jsTypeof] at ht <;>
            first
              | exact absurd rfl hn2
              | (simp [Json.isArr] at hi)
              | skip
          rename_i ys
          rw [compareObjects_arr] at he
          exact compareArrayItems_shape_of s p xs ys
            (fun x hx y hy p2 e2 he2 => compareObjects_shape s x y p2 e2 he2) 0 e he
        | obj fs =>
          cases b <;> simp [jsTypeof] at ht <;>
            first
              | exact absurd rfl hn2
              | (simp [Json.isArr] at hi)
              | skip
          rename_i gs
          rw [compareObjects_obj, compareUnionKeys_eq_flatMap, List.mem_flatMap] at he
          obtain ⟨k, hkmem, hke⟩ := he
          refine keyEntry_shape_of s p fs gs k ?_ e hke
          intro v1 v2 h1 h2 e2 he2
          exact compareObjects_shape s v1 v2 (keyPath p k) e2 he2
termination_by s a b p e => sizeOf a + sizeOf b
decreasing_by
  · have d1 := List.sizeOf_lt_of_mem hx
    have d2 := List.sizeOf_lt_of_mem hy
    simp only [Json.arr.sizeOf_spec]
    omega
  · have d1 := lookupField_size _ _ _ h1
    have d2 := lookupField_size _ _ _ h2
    simp only [Json.obj.sizeOf_spec] at *
    omega

/-- Claim C5 counterexample: a Removed entry produced by the null screen
carries a newValue, the JSON null itself, where the claim says a Removed
entry has no newValue. -/
theorem claim_C5_counterexample :
    diff (Json.num 7) Json.null false =
      [⟨"root", DiffType.removed, some (Json.num 7), some Json.null⟩] ∧
    some Json.null ≠ (none : Option Json) := by
  constructor
  · rw [diff, compareObjects_null (Or.inr rfl)]
    simp [rootify]
  · simp

/-- Claim C5 (amended): in every entry produced by any invocation of the
differ, an Added entry has oldValue none unless it came from the null
screen, in which case its oldValue is JSON null; dually a Removed entry
has newValue none or JSON null; Modified and Unchanged entries always
carry both values. -/
theorem claim_C5_entry_shape (s : Bool) (a b : Json) (p : String) (e : DiffResult)
    (he : e ∈ compareObjects s a b p) :
    (e.type = DiffType.added → e.oldValue = none ∨ e.oldValue = some Json.null) ∧
    (e.type = DiffType.removed → e.newValue = none ∨ e.newValue = some Json.null) ∧
    ((e.type = DiffType.modified ∨ e.type = DiffType.unchanged) →
      e.oldValue.isSome = true ∧ e.newValue.isSome = true) :=
  compareObjects_shape s a b p e he

/-- Witness for claim C5 on a concrete Removed entry of a key-set
asymmetry. -/
theorem claim_C5_witness :
    (⟨"a", DiffType.removed, some (Json.num 1), none⟩ : DiffResult).newValue = none ∨
    (⟨"a", DiffType.removed, some (Json.num 1), none⟩ : DiffResult).newValue =
      some Json.null :=
  (claim_C5_entry_shape true (Json.obj [("a", Json.num 1)]) (Json.obj []) ""
    ⟨"a", DiffType.removed, some (Json.num 1), none⟩
    (by simp [compareObjects, compareUnionKeys, unionKeys, dedupFirst,
      lookupField, keyPath, jsTypeof, Json.isArr])).2.1 rfl

/-- Rule (a) of the visibility match: the accumulated lowercased path is
non-empty (the root is excluded) and contains the term. -/
def pathTextMatches (term lowerPath : String) : Bool :=
  decide (0 < lowerPath.length) && strIncludes lowerPath term

/-- Rule (b) of the visibility match: only string scalars match by
value, by lowercased substring containment. -/
def valueTextMatches (term : String) : Json → Bool
  | .str s => strIncludes (lowerStr s) term
  | _ => false

mutual

/-- A node matches when its own path text matches, its own string value
matches, or some descendant matches: the disjunction the visibility
closure returns for a subtree. -/
def nodeMatch (term : String) (node : Json) (lowerPath : String) : Bool :=
  pathTextMatches term lowerPath || valueTextMatches term node ||
    descendantMatches term node lowerPath

/-- Rule (c): some child subtree contains a matching node. -/
def descendantMatches (term : String) (node : Json) (lowerPath : String) : Bool :=
  match node with
  | .arr xs => arrAnyMatch term xs lowerPath 0
  | .obj fs => objAnyMatch term fs lowerPath
  | _ => false

def arrAnyMatch (term : String) (xs : List Json) (lowerPath : String) (i : Nat) : Bool :=
  match xs with
  | [] => false
  | x :: rest =>
    nodeMatch term x (joinLower lowerPath (Nat.repr i)) ||
      arrAnyMatch term rest lowerPath (i + 1)

def objAnyMatch (term : String) (fs : List (String × Json)) (lowerPath : String) : Bool :=
  match fs with
  | [] => false
  | (k, v) :: rest =>
    nodeMatch term v (joinLower lowerPath (lowerStr k)) ||
      objAnyMatch term rest lowerPath

end

mutual

/-- Every node of the tree in the order the visibility walk completes
them (children first, then the node), paired with the lowercased dotted
path and the subtree rooted there. -/
def postNodes (node : Json) (lowerPath : String) (segs : List String) :
    List (List String × String × Json) :=
  (match node with
   | .arr xs => arrPostNodes xs lowerPath segs 0
   | .obj fs => objPostNodes fs lowerPath segs
   | _ => []) ++ [(segs, lowerPath, node)]

def arrPostNodes (xs : List Json) (lowerPath : String) (segs : List String) (i : Nat) :
    List (List String × String × Json) :=
  match xs with
  | [] => []
  | x :: rest =>
    postNodes x (joinLower lowerPath (Nat.repr i)) (segs ++ [Nat.repr i]) ++
      arrPostNodes rest lowerPath segs (i + 1)

def objPostNodes (fs : List (String × Json)) (lowerPath : String) (segs : List String) :
    List (List String × String × Json) :=
  match fs with
  | [] => []
  | (k, v) :: rest =>
    postNodes v (joinLower lowerPath (lowerStr k)) (segs ++ [k]) ++
      objPostNodes rest lowerPath segs

end

mutual

theorem visitNode_snd (term : String) :
    ∀ (node : Json) (lp : String) (segs : List String),
      (visitNode term node lp segs).2 = nodeMatch term node lp
  | .null, lp, segs => by
    simp [visitNode, nodeMatch, pathTextMatches, valueTextMatches, descendantMatches]
  | .bool b, lp, segs => by
    simp [visitNode, nodeMatch, pathTextMatches, valueTextMatches, descendantMatches]
  | .num n, lp, segs => by
    simp [visitNode, nodeMatch, pathTextMatches, valueTextMatches, descendantMatches]
  | .str s, lp, segs => by
    simp [visitNode, nodeMatch, pathTextMatches, valueTextMatches, descendantMatches]
  | .arr xs, lp, segs => by
    simp [visitNode, nodeMatch, pathTextMatches, valueTextMatches, descendantMatches,
      visitArr_snd term xs lp segs 0]
  | .obj fs, lp, segs => by
    simp [visitNode, nodeMatch, pathTextMatches, valueTextMatches, descendantMatches,
      visitObj_snd term fs lp segs]

theorem visitArr_snd (term : String) :
    ∀ (xs : List Json) (lp : String) (segs : List String) (i : Nat),
      (visitArr term xs lp segs i).2 = arrAnyMatch term xs lp i
  | [], lp, segs, i => by rw [visitArr, arrAnyMatch]
  | x :: rest, lp, segs, i => by
    rw [visitArr, arrAnyMatch]
    simp [visitNode_snd term x (joinLower lp (Nat.repr i)) (segs ++ [Nat.repr i]),
      visitArr_snd term rest lp segs (i + 1)]

theorem visitObj_snd (term : String) :
    ∀ (fs : List (String × Json)) (lp : String) (segs : List String),
      (visitObj term fs lp segs).2 = objAnyMatch term fs lp
  | [], lp, segs => by rw [visitObj, objAnyMatch]
  | (k, v) :: rest, lp, segs => by
    rw [visitObj, objAnyMatch]
    simp [visitNode_snd term v (joinLower lp (lowerStr k)) (segs ++ [k]),
      visitObj_snd term rest lp segs]

end

theorem filter_map_singleton (p : (List String × String × Json) → Bool)
    (t : List String × String × Json) :
    ((List.filter p [t]).map (fun t2 => t2.1)) = if p t then [t.1] else [] := by
  by_cases h : p t = true <;> simp [h]

mutual

theorem visitNode_fst (term : String) :
    ∀ (node : Json) (lp : String) (segs : List String),
      (visitNode term node lp segs).1 =
        ((postNodes node lp segs).filter
          (fun t => nodeMatch term t.2.2 t.2.1)).map (fun t => t.1)
  | .null, lp, segs => by
    simp only [visitNode, postNodes, List.nil_append, filter_map_singleton]
    simp [nodeMatch, pathTextMatches, valueTextMatches, descendantMatches]
  | .bool b, lp, segs => by
    simp only [visitNode, postNodes, List.nil_append, filter_map_singleton]
    simp [nodeMatch, pathTextMatches, valueTextMatches, descendantMatches]
  | .num n, lp, segs => by
    simp only [visitNode, postNodes, List.nil_append, filter_map_singleton]
    simp [nodeMatch, pathTextMatches, valueTextMatches, descendantMatches]
  | .str s, lp, segs => by
    simp only [visitNode, postNodes, List.nil_append, filter_map_singleton]
    simp [nodeMatch, pathTextMatches, valueTextMatches, descendantMatches]
  | .arr xs, lp, segs => by
    simp only [visitNode, postNodes, List.filter_append, List.map_append,
      filter_map_singleton, ← visitArr_fst term xs lp segs 0]
    simp [nodeMatch, pathTextMatches, valueTextMatches, descendantMatches,
      visitArr_snd term xs lp segs 0]
  | .obj fs, lp, segs => by
    simp only [visitNode, postNodes, List.filter_append, List.map_append,
      filter_map_singleton, ← visitObj_fst term fs lp segs]
    simp [nodeMatch, pathTextMatches, valueTextMatches, descendantMatches,
      visitObj_snd term fs lp segs]

theorem visitArr_fst (term : String) :
    ∀ (xs : List Json) (lp : String) (segs : List String) (i : Nat),
      (visitArr term xs lp segs i).1 =
        ((arrPostNodes xs lp segs i).filter
          (fun t => nodeMatch term t.2.2 t.2.1)).map (fun t => t.1)
  | [], lp, segs, i => by rw [visitArr, arrPostNodes]; simp
  | x :: rest, lp, segs, i => by
    rw [visitArr, arrPostNodes, List.filter_append, List.map_append,
      ← visitNode_fst term x (joinLower lp (Nat.repr i)) (segs ++ [Nat.repr i]),
      ← visitArr_fst term rest lp segs (i + 1)]

theorem visitObj_fst (term : String) :
    ∀ (fs : List (String × Json)) (lp : String) (segs : List String),
      (visitObj term fs lp segs).1 =
        ((objPostNodes fs lp segs).filter
          (fun t => nodeMatch term t.2.2 t.2.1)).map (fun t => t.1)
  | [], lp, segs => by rw [visitObj, objPostNodes]; simp
  | (k, v) :: rest, lp, segs => by
    rw [visitObj, objPostNodes, List.filter_append, List.map_append,
      ← visitNode_fst term v (joinLower lp (lowerStr k)) (segs ++ [k]),
      ← visitObj_fst term rest lp segs]

end

mutual

theorem visitNode_ne (term : String) :
    ∀ (node : Json) (lp : String) (segs : List String),
      (visitNode term node lp segs).1 ≠ [] → (visitNode term node lp segs).2 = true
  | .null, lp, segs => by
    intro hne
    simp only [visitNode] at hne ⊢
    cases hc : (decide (0 < lp.length) && strIncludes lp term) <;>
      simp [hc] at hne ⊢
  | .bool b, lp, segs => by
    intro hne
    simp only [visitNode] at hne ⊢
    cases hc : (decide (0 < lp.length) && strIncludes lp term) <;>
      simp [hc] at hne ⊢
  | .num n, lp, segs => by
    intro hne
    simp only [visitNode] at hne ⊢
    cases hc : (decide (0 < lp.length) && strIncludes lp term) <;>
      simp [hc] at hne ⊢
  | .str s, lp, segs => by
    intro hne
    simp only [visitNode] at hne ⊢
    cases hc : (decide (0 < lp.length) && strIncludes lp term) <;>
      cases hv : strIncludes (lowerStr s) term <;>
      simp [hc, hv] at hne ⊢
  | .arr xs, lp, segs => by
    intro hne
    simp only [visitNode] at hne ⊢
    cases hc : (decide (0 < lp.length) && strIncludes lp term)
    · cases hd : (visitArr term xs lp segs 0).2
      · rw [hc, hd] at hne
        simp at hne
        exact absurd (visitArr_ne term xs lp segs 0 hne) (by rw [hd]; simp)
      · simp [hc, hd]
    · simp [hc]
  | .obj fs, lp, segs => by
    intro hne
    simp only [visitNode] at hne ⊢
    cases hc : (decide (0 < lp.length) && strIncludes lp term)
    · cases hd : (visitObj term fs lp segs).2
      · rw [hc, hd] at hne
        simp at hne
        exact absurd (visitObj_ne term fs lp segs hne) (by rw [hd]; simp)
      · simp [hc, hd]
    · simp [hc]

theorem visitArr_ne (term : String) :
    ∀ (xs : List Json) (lp : String) (segs : List String) (i : Nat),
      (visitArr term xs lp segs i).1 ≠ [] → (visitArr term xs lp segs i).2 = true
  | [], lp, segs, i => by
    intro hne
    rw [visitArr] at hne
    exact absurd rfl hne
  | x :: rest, lp, segs, i => by
    intro hne
    simp only [visitArr] at hne ⊢
    by_cases h1 : (visitNode term x (joinLower lp (Nat.repr i)) (segs ++ [Nat.repr i])).1 = []
    · rw [h1, List.nil_append] at hne
      simp [visitArr_ne term rest lp segs (i + 1) hne]
    · simp [visitNode_ne term x (joinLower lp (Nat.repr i)) (segs ++ [Nat.repr i]) h1]

theorem visitObj_ne (term : String) :
    ∀ (fs : List (String × Json)) (lp : String) (segs : List String),
      (visitObj term fs lp segs).1 ≠ [] → (visitObj term fs lp segs).2 = true
  | [], lp, segs => by
    intro hne
    rw [visitObj] at hne
    exact absurd rfl hne
  | (k, v) :: rest, lp, segs => by
    intro hne
    simp only [visitObj] at hne ⊢
    by_cases h1 : (visitNode term v (joinLower lp (lowerStr k)) (segs ++ [k])).1 = []
    · rw [h1, List.nil_append] at hne
      simp [visitObj_ne term rest lp segs hne]
    · simp [visitNode_ne term v (joinLower lp (lowerStr k)) (segs ++ [k]) h1]

end

theorem mem_ite_nil_singleton {c : Prop} [Decidable c] {q x : List String}
    (h : q ∈ if c then [x] else []) : q = x ∧ c := by
  by_cases hc : c
  · rw [if_pos hc] at h
    exact ⟨List.mem_singleton.1 h, hc⟩
  · rw [if_neg hc] at h
    exact absurd h (List.not_mem_nil q)

mutual

theorem visitNode_closure (term : String) :
    ∀ (node : Json) (lp : String) (segs : List String) (q : List String),
      q ∈ (visitNode term node lp segs).1 →
      ∃ r, q = segs ++ r ∧
        ∀ t, t <+: r → segs ++ t ∈ (visitNode term node lp segs).1
  | node, lp, segs, q => by
    intro hq
    rcases hmem : node with _ | _ | _ | _ | xs | fs
    all_goals subst hmem
    case arr =>
      simp only [visitNode] at hq ⊢
      rw [List.mem_append] at hq
      rcases hq with hq | hq
      · obtain ⟨r', hrne, hqe, hcl⟩ := visitArr_closure term xs lp segs 0 q hq
        refine ⟨r', hqe, ?_⟩
        intro t ht
        by_cases htnil : t = []
        · subst htnil
          rw [List.append_nil, List.mem_append]
          right
          have hchne : (visitArr term xs lp segs 0).1 ≠ [] := List.ne_nil_of_mem hq
          simp [visitArr_ne term xs lp segs 0 hchne]
        · rw [List.mem_append]
          left
          exact hcl t ht htnil
      · obtain ⟨rfl, hc⟩ := mem_ite_nil_singleton hq
        refine ⟨[], by rw [List.append_nil], ?_⟩
        intro t ht
        rw [List.prefix_nil.1 ht, List.append_nil, List.mem_append]
        right
        rw [if_pos hc]
        exact List.mem_singleton.2 rfl
    case obj =>
      simp only [visitNode] at hq ⊢
      rw [List.mem_append] at hq
      rcases hq with hq | hq
      · obtain ⟨r', hrne, hqe, hcl⟩ := visitObj_closure term fs lp segs q hq
        refine ⟨r', hqe, ?_⟩
        intro t ht
        by_cases htnil : t = []
        · subst htnil
          rw [List.append_nil, List.mem_append]
          right
          have hchne : (visitObj term fs lp segs).1 ≠ [] := List.ne_nil_of_mem hq
          simp [visitObj_ne term fs lp segs hchne]
        · rw [List.mem_append]
          left
          exact hcl t ht htnil
      · obtain ⟨rfl, hc⟩ := mem_ite_nil_singleton hq
        refine ⟨[], by rw [List.append_nil], ?_⟩
        intro t ht
        rw [List.prefix_nil.1 ht, List.append_nil, List.mem_append]
        right
        rw [if_pos hc]
        exact List.mem_singleton.2 rfl
    all_goals (
      simp only [visitNode, List.nil_append] at hq ⊢
      obtain ⟨rfl, hc⟩ := mem_ite_nil_singleton hq
      refine ⟨[], by rw [List.append_nil], ?_⟩
      intro t ht
      rw [List.prefix_nil.1 ht, List.append_nil, if_pos hc]
      exact List.mem_singleton.2 rfl)

theorem visitArr_closure (term : String) :
    ∀ (xs : List Json) (lp : String) (segs : List String) (i : Nat) (q : List String),
      q ∈ (visitArr term xs lp segs i).1 →
      ∃ r, r ≠ [] ∧ q = segs ++ r ∧
        ∀ t, t <+: r → t ≠ [] → segs ++ t ∈ (visitArr term xs lp segs i).1
  | [], lp, segs, i, q => by
    intro hq
    rw [visitArr] at hq
    exact absurd hq (List.not_mem_nil q)
  | x :: rest, lp, segs, i, q => by
    intro hq
    simp only [visitArr] at hq ⊢
    rw [List.mem_append] at hq
    rcases hq with hq | hq
    · obtain ⟨r', hqe, hcl⟩ :=
        visitNode_closure term x (joinLower lp (Nat.repr i)) (segs ++ [Nat.repr i]) q hq
      refine ⟨Nat.repr i :: r', by simp, by simpa using hqe, ?_⟩
      intro t ht htne
      rcases List.prefix_cons_iff.1 ht with h | ⟨t', rfl, ht'⟩
      · exact absurd h htne
      · rw [List.mem_append]
        left
        have := hcl t' ht'
        simpa using this
    · obtain ⟨r, hrne, hqe, hcl⟩ := visitArr_closure term rest lp segs (i + 1) q hq
      refine ⟨r, hrne, hqe, ?_⟩
      intro t ht htne
      rw [List.mem_append]
      right
      exact hcl t ht htne

theorem visitObj_closure (term : String) :
    ∀ (fs : List (String × Json)) (lp : String) (segs : List String) (q : List String),
      q ∈ (visitObj term fs lp segs).1 →
      ∃ r, r ≠ [] ∧ q = segs ++ r ∧
        ∀ t, t <+: r → t ≠ [] → segs ++ t ∈ (visitObj term fs lp segs).1
  | [], lp, segs, q => by
    intro hq
    rw [visitObj] at hq
    exact absurd hq (List.not_mem_nil q)
  | (k, v) :: rest, lp, segs, q => by
    intro hq
    simp only [visitObj] at hq ⊢
    rw [List.mem_append] at hq
    rcases hq with hq | hq
    · obtain ⟨r', hqe, hcl⟩ :=
        visitNode_closure term v (joinLower lp (lowerStr k)) (segs ++ [k]) q hq
      refine ⟨k :: r', by simp, by simpa using hqe, ?_⟩
      intro t ht htne
      rcases List.prefix_cons_iff.1 ht with h | ⟨t', rfl, ht'⟩
      · exact absurd h htne
      · rw [List.mem_append]
        left
        have := hcl t' ht'
        simpa using this
    · obtain ⟨r, hrne, hqe, hcl⟩ := visitObj_closure term rest lp segs q hq
      refine ⟨r, hrne, hqe, ?_⟩
      intro t ht htne
      rw [List.mem_append]
      right
      exact hcl t ht htne

end

theorem visitNode_self_mem (term : String) (node : Json) (lp : String) (segs : List String)
    (h : (visitNode term node lp segs).2 = true) :
    segs ∈ (visitNode term node lp segs).1 := by
  cases node <;>
    (simp only [visitNode] at h ⊢
     rw [List.mem_append]
     right
     rw [if_pos h]
     exact List.mem_singleton.2 rfl)

/-- Claim C7: for every JSON value and non-empty normalized term, every
proper prefix of a visible path is itself visible: ancestors of any
visible node are visible. -/
theorem claim_C7_visibility_ancestor_closure (v : Json) (term : String)
    (hterm : term ≠ "") (p t : List String)
    (hp : p ∈ (buildVisibilityIndex v term).visiblePaths)
    (ht : t <+: p) (hproper : t ≠ p) :
    t ∈ (buildVisibilityIndex v term).visiblePaths := by
  simp only [buildVisibilityIndex] at hp ⊢
  obtain ⟨r, hqe, hcl⟩ := visitNode_closure term v "" [] p hp
  rw [List.nil_append] at hqe
  subst hqe
  have := hcl t ht
  rw [List.nil_append] at this
  exact this

/-- Witness for claim C7: in the findme example, the path to b is
visible, and by the theorem so is its ancestor a. -/
theorem claim_C7_witness :
    ["a"] ∈ (buildVisibilityIndex (Json.obj [("a", Json.obj [("b", Json.str "findme")])])
      "findme").visiblePaths :=
  claim_C7_visibility_ancestor_closure
    (Json.obj [("a", Json.obj [("b", Json.str "findme")])]) "findme" (by decide)
    ["a", "b"] ["a"] (by decide) ⟨["b"], rfl⟩ (by decide)

/-- Claim C9: the visible set is exactly the set of positions of nodes
whose own path text matches (root excluded), whose own string value
matches, or beneath which some descendant matches, in the order the walk
completes them. -/
theorem claim_C9_match_characterization (v : Json) (term : String) (hterm : term ≠ "") :
    (buildVisibilityIndex v term).visiblePaths =
      ((postNodes v "" []).filter
        (fun t => pathTextMatches term t.2.1 || valueTextMatches term t.2.2 ||
          descendantMatches term t.2.2 t.2.1)).map (fun t => t.1) := by
  simp only [buildVisibilityIndex]
  rw [visitNode_fst term v "" []]
  congr 1
  apply List.filter_congr
  intro t _
  rw [nodeMatch]

/-- Witness for claim C9 on the secretKey example: the path to secretKey
is visible purely because its key name matches. -/
theorem claim_C9_witness :
    (buildVisibilityIndex (Json.obj [("secretKey", Json.num 1)]) "secret").visiblePaths =
      ((postNodes (Json.obj [("secretKey", Json.num 1)]) "" []).filter
        (fun t => pathTextMatches "secret" t.2.1 || valueTextMatches "secret" t.2.2 ||
          descendantMatches "secret" t.2.2 t.2.1)).map (fun t => t.1) :=
  claim_C9_match_characterization (Json.obj [("secretKey", Json.num 1)]) "secret"
    (by decide)

/-- Claim C10: hasMatches is true exactly when the root path is in the
visible set, and when it is false the visible set is empty. -/
theorem claim_C10_root_membership (v : Json) (term : String) (hterm : term ≠ "") :
    ((buildVisibilityIndex v term).hasMatches = true ↔
      [] ∈ (buildVisibilityIndex v term).visiblePaths) ∧
    ((buildVisibilityIndex v term).hasMatches = false →
      (buildVisibilityIndex v term).visiblePaths = []) := by
  simp only [buildVisibilityIndex]
  constructor
  · constructor
    · intro h
      exact visitNode_self_mem term v "" [] h
    · intro h
      exact visitNode_ne term v "" [] (List.ne_nil_of_mem h)
  · intro h
    by_contra hne
    exact absurd (visitNode_ne term v "" [] hne) (by rw [h]; simp)

/-- Witness for claim C10 on the no-match example: hasMatches is false
and the visible set is empty. -/
theorem claim_C10_witness :
    ((buildVisibilityIndex (Json.obj [("a", Json.num 1)]) "zzz").hasMatches = true ↔
      [] ∈ (buildVisibilityIndex (Json.obj [("a", Json.num 1)]) "zzz").visiblePaths) ∧
    ((buildVisibilityIndex (Json.obj [("a", Json.num 1)]) "zzz").hasMatches = false →
      (buildVisibilityIndex (Json.obj [("a", Json.num 1)]) "zzz").visiblePaths = []) :=
  claim_C10_root_membership (Json.obj [("a", Json.num 1)]) "zzz" (by decide)
